import Mathlib

/-!
Verification of the BnF prototype manifest generator
(`scripts/generate-manifest.ts` and its interactive duplicate).

The development shallowly embeds the data-processing core of the script:
the fragment parsers (`getTime`, `parseFragmentSelector`), the two
annotation-join passes, the page-range accumulator, the interval
reconciler (`orderCanvasMapping` / `orderAnnotationMapping`) and the
manifest assembly step (including the mutating `fixAudio`).

JavaScript numbers are modelled by `JSNum`: an exact rational together
with the three non-finite values `NaN`, `Infinity` and `-Infinity` that
the script manipulates (`parseFloat` of an absent regex group is `NaN`;
the accumulator is seeded with `Infinity` / `-Infinity`).
-/

/-- Model of a JavaScript number as used by the script: an exact rational
(`num`), `NaN` (`nan`), `Infinity` (`inf`) or `-Infinity` (`ninf`). -/
inductive JSNum where
  | nan : JSNum
  | inf : JSNum
  | ninf : JSNum
  | num : ℚ → JSNum
deriving DecidableEq, Repr

namespace JSNum

/-- `Math.min` on two JS numbers: `NaN` absorbs, otherwise the smaller value. -/
def jsMin : JSNum → JSNum → JSNum
  | nan, _ => nan
  | _, nan => nan
  | ninf, _ => ninf
  | _, ninf => ninf
  | inf, b => b
  | a, inf => a
  | num a, num b => num (min a b)

/-- `Math.max` on two JS numbers: `NaN` absorbs, otherwise the larger value. -/
def jsMax : JSNum → JSNum → JSNum
  | nan, _ => nan
  | _, nan => nan
  | inf, _ => inf
  | _, inf => inf
  | ninf, b => b
  | a, ninf => a
  | num a, num b => num (max a b)

/-- JS addition, used by the reconciler's mid-point `(thisMax + nextMin)`. -/
def jsAdd : JSNum → JSNum → JSNum
  | nan, _ => nan
  | _, nan => nan
  | inf, ninf => nan
  | ninf, inf => nan
  | inf, _ => inf
  | _, inf => inf
  | ninf, _ => ninf
  | _, ninf => ninf
  | num a, num b => num (a + b)

/-- JS division by the literal `2`, the other half of the mid-point. -/
def jsHalf : JSNum → JSNum
  | nan => nan
  | inf => inf
  | ninf => ninf
  | num a => num (a / 2)

/-- The effective "less or equal" test performed by a JS sort using the
comparator `(a, b) => a - b`: the pair is left in order unless `a - b > 0`.
A `NaN` difference compares as not-greater-than-zero, hence `true`. -/
def jsLeb : JSNum → JSNum → Bool
  | nan, _ => true
  | _, nan => true
  | num a, num b => decide (a ≤ b)
  | inf, inf => true
  | inf, _ => false
  | ninf, _ => true
  | num _, inf => true
  | num _, ninf => false

/-- Strict order on JS numbers, holding only between finite values. -/
def jsLtP : JSNum → JSNum → Prop
  | num a, num b => a < b
  | _, _ => False

/-- Non-strict order on JS numbers, holding only between finite values. -/
def jsLeP : JSNum → JSNum → Prop
  | num a, num b => a ≤ b
  | _, _ => False

instance (a b : JSNum) : Decidable (jsLtP a b) := by
  cases a <;> cases b <;> simp [jsLtP] <;> infer_instance

instance (a b : JSNum) : Decidable (jsLeP a b) := by
  cases a <;> cases b <;> simp [jsLeP] <;> infer_instance

end JSNum

open JSNum

/-! ### Character-level number parsing

`getTime` applies the regular expression
`/&?(t=)(npt:)?([0-9]+(\.[0-9]+)?)?(,([0-9]+(\.[0-9]+)?))?/` and feeds the
two numeric groups to `parseFloat`; `parseFragmentSelector` feeds the split
pieces of a polygon fragment to `Number`.  Both only ever see unsigned
decimal literals `[0-9]+(\.[0-9]+)?`, which the following functions decode
exactly into rationals. -/

/-- The longest prefix of decimal digits, together with the remainder. -/
def takeDigits : List Char → List Char × List Char
  | [] => ([], [])
  | c :: r =>
    if c.isDigit then
      let p := takeDigits r
      (c :: p.1, p.2)
    else ([], c :: r)

/-- Numeric value of a digit string, most significant digit first. -/
def digitsToNat (l : List Char) : Nat :=
  l.foldl (fun acc c => 10 * acc + (c.toNat - 48)) 0

/-- Parse a leading unsigned decimal literal `[0-9]+(\.[0-9]+)?`, returning
its exact rational value and the unconsumed remainder; `none` when the input
does not start with a digit (the behaviour of a failed optional regex group). -/
def parseNum (l : List Char) : Option (ℚ × List Char) :=
  let p := takeDigits l
  if p.1 = [] then none
  else
    let ip : ℚ := (digitsToNat p.1 : ℚ)
    match p.2 with
    | '.' :: r2 =>
      let f := takeDigits r2
      if f.1 = [] then some (ip, p.2)
      else some (ip + (digitsToNat f.1 : ℚ) / ((10 : ℚ) ^ f.1.length), f.2)
    | _ => some (ip, p.2)

/-- A time range as produced by `getTime`; the source field `end` is a Lean
keyword and is called `stop` here. -/
structure TimeRange where
  start : JSNum
  stop : JSNum
deriving DecidableEq, Repr

/-- The suffix following the first occurrence of the substring `t=`, the
anchor of the temporal-selector regex (the optional leading `&` and all
later groups do not affect whether the pattern matches). -/
def findTEq : List Char → Option (List Char)
  | [] => none
  | c :: rest =>
    if c = 't' ∧ rest.head? = some '=' then some rest.tail else findTEq rest

/-- Group 5/6 of the temporal regex, `(,([0-9]+(\.[0-9]+)?))?`: a comma
directly followed by a number; `none` when the group fails to match. -/
def commaNumber (l : List Char) : Option ℚ :=
  if l.head? = some ',' then (parseNum l.tail).map Prod.fst else none

/-- Decode groups 3 and 6 of the temporal regex from the text following
`t=` (and a consumed `npt:` marker, when present): an optional number (the
start) and an optional `,number` (the end).  An absent group goes through
`parseFloat(undefined)` and yields `NaN`. -/
def parseGroup36 (rest1 : List Char) : JSNum × JSNum :=
  match parseNum rest1 with
  | some (st, rest2) =>
    match commaNumber rest2 with
    | some en => (num st, num en)
    | none => (num st, nan)
  | none =>
    match commaNumber rest1 with
    | some en => (nan, num en)
    | none => (nan, nan)

/-- Decode the regex groups after `t=`: consume an optional `npt:` marker,
then read the two optional numeric groups. -/
def matchTemporal (rest : List Char) : JSNum × JSNum :=
  parseGroup36 (if rest.take 4 = ['n', 'p', 't', ':'] then rest.drop 4 else rest)

/-- `getTime` from the script: match the temporal-selector regex and parse
its two numeric groups; a string without `t=` does not match and yields
`{start: 0, end: 0}`. -/
def getTime (frag : String) : TimeRange :=
  match findTEq frag.data with
  | some rest =>
    let p := matchTemporal rest
    ⟨p.1, p.2⟩
  | none => ⟨num 0, num 0⟩

/-! ### The spatial fragment parser -/

/-- Split on every occurrence of the two-character separator `)(`, as
`.split(/\)\(/)` does. -/
def splitParen : List Char → List (List Char)
  | [] => [[]]
  | ')' :: '(' :: rest => [] :: splitParen rest
  | c :: rest =>
    match splitParen rest with
    | h :: t => (c :: h) :: t
    | [] => [[c]]

/-- Split on every comma, as `.split(",")` does. -/
def splitComma : List Char → List (List Char)
  | [] => [[]]
  | ',' :: rest => [] :: splitComma rest
  | c :: rest =>
    match splitComma rest with
    | h :: t => (c :: h) :: t
    | [] => [[c]]

/-- Drop the first occurrence of `P`, as `.replace("P", "")` does. -/
def removeFirstP : List Char → List Char
  | [] => []
  | 'P' :: rest => rest
  | c :: rest => c :: removeFirstP rest

/-- `value.replace(/^\(\(|\)\)$/g, "")`: remove a literal `((` at the very
start and a literal `))` at the very end (both matched against the original
string; they cannot overlap on any string where both are present). -/
def stripOuter (l : List Char) : List Char :=
  let l1 := if l.take 2 = ['(', '('] then l.drop 2 else l
  if 2 ≤ l.length ∧ l.drop (l.length - 2) = [')', ')'] then l1.take (l1.length - 2) else l1

/-- Model of the JS `Number()` conversion on the strings the script feeds
it: the empty string converts to `0`, a full unsigned decimal literal to its
value, anything else to `NaN` (signs, exponents and whitespace never occur
in the polygon fragments). -/
def jsNumber (l : List Char) : JSNum :=
  if l = [] then num 0
  else
    match parseNum l with
    | some (q, []) => num q
    | _ => nan

/-- `parseFragmentSelector` from the script: strip the outer double
parentheses, split on `)(`, strip the `P` marker, split on the comma and
convert both halves with `Number`. -/
def parseFragmentSelector (value : String) : List (List JSNum) :=
  (splitParen (stripOuter value.data)).map
    (fun coord => (splitComma (removeFirstP coord)).map jsNumber)

/-! ### The interval reconciler

`orderCanvasMapping` and `orderAnnotationMapping` run the same loop: sort
the `(id, originalMin, originalMax)` entries by `originalMin`, then walk
them emitting one segment each, whose `end` is the midpoint to the next
entry's minimum (or the entry's own maximum for the last one) and whose
`start` is the previous segment's `end` (or the first entry's minimum).
The only difference between the two functions is how the entries are
extracted, so the shared loop is factored out here. -/

/-- One sorted triple, as built by both reconciler functions. -/
structure OrderedEntry where
  id : String
  originalMin : JSNum
  originalMax : JSNum
deriving DecidableEq, Repr

/-- One slot of the produced partition; the source field `end` is a Lean
keyword and is called `stop` here. -/
structure Segment where
  id : String
  start : JSNum
  stop : JSNum
deriving DecidableEq, Repr

/-- Insert into an already sorted list, keeping the new element before the
first strictly larger one (the element being inserted precedes the list's
elements in the original order, so this placement is exactly stable). -/
def sortInsert (le : α → α → Bool) (a : α) : List α → List α
  | [] => [a]
  | b :: l => if le a b then a :: b :: l else b :: sortInsert le a l

/-- Stable insertion sort, modelling `Array.prototype.sort` (stable per the
ECMAScript specification; for a consistent comparator the stable sorted
order is unique, so the choice of stable algorithm is immaterial). -/
def sortEntries (le : α → α → Bool) : List α → List α
  | [] => []
  | a :: l => sortInsert le a (sortEntries le l)

/-- The comparator `(a, b) => a.originalMin - b.originalMin`, as a
"stay in order" test. -/
def leMin (a b : OrderedEntry) : Bool :=
  jsLeb a.originalMin b.originalMin

/-- The reconciliation loop over the already sorted entries, threading the
running `start` (the previous segment's `end`): one segment per entry,
`end = (thisMax + nextMin) / 2` when a next entry exists, `end = thisMax`
for the last entry. -/
def segmentsLoop : List OrderedEntry → JSNum → List Segment
  | [], _ => []
  | [e], start => [⟨e.id, start, e.originalMax⟩]
  | e :: f :: rest, start =>
    ⟨e.id, start, jsHalf (jsAdd e.originalMax f.originalMin)⟩ ::
      segmentsLoop (f :: rest) (jsHalf (jsAdd e.originalMax f.originalMin))

/-- Sort the entries and run the loop; an empty entry list gives an empty
partition, otherwise the first segment starts at the first sorted entry's
`originalMin`. -/
def reconcile (entries : List OrderedEntry) : List Segment :=
  match sortEntries leMin entries with
  | [] => []
  | e :: rest => segmentsLoop (e :: rest) e.originalMin

/-- The accumulated `{min, max}` pair of one page. -/
structure MinMax where
  min : JSNum
  max : JSNum
deriving DecidableEq, Repr

/-- The entries `orderCanvasMapping` builds from `Object.entries(canvasMinMax)`
(the association list models the object in key-insertion order). -/
def canvasEntries (canvasMinMax : List (String × MinMax)) : List OrderedEntry :=
  canvasMinMax.map (fun p => ⟨p.1, p.2.min, p.2.max⟩)

/-- `orderCanvasMapping` from the script. -/
def orderCanvasMapping (canvasMinMax : List (String × MinMax)) : List Segment :=
  reconcile (canvasEntries canvasMinMax)

/-! ### The identifier join -/

/-- A fragment selector of a raw annotation. -/
structure Selector where
  type : String
  value : String
deriving DecidableEq, Repr

/-- The body of a raw annotation; `source` is `none` when absent and the
empty string is falsy, matching the `anno?.body?.source` truthiness test. -/
structure AnnoBody where
  source : Option String
  selector : Option Selector
deriving DecidableEq, Repr

/-- One raw annotation from either collection (a `null` body is `none`). -/
structure RawAnno where
  body : Option AnnoBody
deriving DecidableEq, Repr

/-- The acceptance test `anno?.body?.source && anno?.body?.selector?.type
=== "FragmentSelector"`. -/
def accepted (a : RawAnno) : Bool :=
  match a.body with
  | none => false
  | some b =>
    match b.source, b.selector with
    | some src, some sel => decide (src ≠ "") && decide (sel.type = "FragmentSelector")
    | _, _ => false

/-- The selector value of an accepted annotation (only read after
`accepted` holds, when the selector is present). -/
def selValue (a : RawAnno) : String :=
  match a.body with
  | some b =>
    match b.selector with
    | some sel => sel.value
    | none => ""
  | none => ""

/-- The body source of an accepted annotation. -/
def srcValue (a : RawAnno) : String :=
  match a.body with
  | some b =>
    match b.source with
    | some src => src
    | none => ""
  | none => ""

/-- The SVG selector `toSvg` builds.  The source renders an `<svg>` markup
string from exactly these three pieces of data; the markup text itself,
pure formatting, is kept as the data it is generated from. -/
structure SvgSel where
  width : JSNum
  height : JSNum
  points : List (List JSNum)
deriving DecidableEq, Repr

/-- `toSvg` from the script. -/
def toSvg (width height : JSNum) (points : List (List JSNum)) : SvgSel :=
  ⟨width, height, points⟩

/-- One record of the join `mapping`, keyed by the shared external id.
The source stores in `minMax` a live reference into `canvasMinMax`; the
pure rendering keeps the canvas key the reference points at. -/
structure NoteRecord where
  audio : Option TimeRange
  imageId : Option String
  canvasId : Option String
  svgPoints : Option (List (List JSNum))
  svgSelector : Option SvgSel
  minMaxKey : Option String
deriving DecidableEq, Repr

/-- A record with every field absent, `mapping[id] || {}`. -/
def emptyRecord : NoteRecord :=
  ⟨none, none, none, none, none, none⟩

/-- The join mapping, a JS object in key-insertion order. -/
abbrev Mapping := List (String × NoteRecord)

/-- Object property lookup on the modelled mapping. -/
def lookupRecord (m : Mapping) (id : String) : Option NoteRecord :=
  match m with
  | [] => none
  | p :: r => if p.1 = id then some p.2 else lookupRecord r id

/-- `mapping[id] = mapping[id] || {}` followed by a field update: update in
place when the key exists, append a fresh record otherwise. -/
def setRecord (m : Mapping) (id : String) (f : NoteRecord → NoteRecord) : Mapping :=
  match m with
  | [] => [(id, f emptyRecord)]
  | p :: r => if p.1 = id then (p.1, f p.2) :: r else p :: setRecord r id f

/-- Update an existing record only (used by the image pass, which has
already checked that the record exists). -/
def updateRecord (m : Mapping) (id : String) (f : NoteRecord → NoteRecord) : Mapping :=
  match m with
  | [] => []
  | p :: r => if p.1 = id then (p.1, f p.2) :: r else p :: updateRecord r id f

/-- The temporal pass over one id's annotation list: each accepted entry
stores its parsed time range on the record (last write wins). -/
def processAudioList (m : Mapping) (id : String) : List RawAnno → Mapping
  | [] => m
  | anno :: rest =>
    if accepted anno then
      processAudioList (setRecord m id (fun rec => { rec with audio := some (getTime (selValue anno)) })) id rest
    else processAudioList m id rest

/-- The whole temporal pass, `Object.entries(audioAnnotations).forEach`
(a non-array entry value is modelled as its singleton list, as
`Array.isArray` normalisation produces). -/
def processAudio (input : List (String × List RawAnno)) : Mapping :=
  input.foldl (fun m p => processAudioList m p.1 p.2) []

/-- The black-box manifest collaborators: resolution of an image-service
id to its canvas and the canvas pixel dimensions.  The script would throw
on an unresolvable source (`vault.get(undefined)`); runs are modelled in
which every lookup the data performs succeeds. -/
structure ResolveEnv where
  serviceToCanvas : String → String
  canvasWidth : String → JSNum
  canvasHeight : String → JSNum

/-- The state threaded through the spatial pass: the join mapping and the
page-range accumulator `canvasMinMax`. -/
structure JoinState where
  mapping : Mapping
  canvasMinMax : List (String × MinMax)
deriving Repr

/-- Accumulator lookup. -/
def lookupMinMax (l : List (String × MinMax)) (id : String) : Option MinMax :=
  match l with
  | [] => none
  | p :: r => if p.1 = id then some p.2 else lookupMinMax r id

/-- `canvasMinMax[id] = canvasMinMax[id] || {min: Infinity, max: -Infinity}`
followed by widening with the record's time range. -/
def widenMinMax (l : List (String × MinMax)) (id : String) (tr : TimeRange) :
    List (String × MinMax) :=
  match l with
  | [] => [(id, ⟨jsMin tr.start inf, jsMax tr.stop ninf⟩)]
  | p :: r =>
    if p.1 = id then (p.1, ⟨jsMin tr.start p.2.min, jsMax tr.stop p.2.max⟩) :: r
    else p :: widenMinMax r id tr

/-- The spatial pass over one id's annotation list.  The `return` inside
the `forEach` callback abandons the remaining annotations of this id as
soon as an accepted entry finds no record or a record without temporal
data; otherwise the record acquires the page reference, the polygon and
the SVG selector, and the page's running range is widened. -/
def processImageList (env : ResolveEnv) (st : JoinState) (id : String) :
    List RawAnno → JoinState
  | [] => st
  | anno :: rest =>
    if accepted anno then
      match lookupRecord st.mapping id with
      | none => st
      | some rec =>
        match rec.audio with
        | none => st
        | some audioTR =>
          let cid := env.serviceToCanvas (srcValue anno)
          let pts := parseFragmentSelector (selValue anno)
          let acc := widenMinMax st.canvasMinMax cid audioTR
          let m' := updateRecord st.mapping id (fun r =>
            { r with
              imageId := some (srcValue anno)
              canvasId := some cid
              svgPoints := some pts
              svgSelector := some (toSvg (env.canvasWidth cid) (env.canvasHeight cid) pts)
              minMaxKey := some cid })
          processImageList env ⟨m', acc⟩ id rest
    else processImageList env st id rest

/-- The whole spatial pass, `Object.entries(imageAnnotations).forEach`. -/
def processImage (env : ResolveEnv) (m : Mapping) (input : List (String × List RawAnno)) :
    JoinState :=
  input.foldl (fun st p => processImageList env st p.1 p.2) ⟨m, []⟩

/-- The entries `orderAnnotationMapping` builds: keep the ids whose record
has both temporal data and an SVG selector (`!!range.audio &&
range.svgSelector`), taking the time range's bounds as the triple. -/
def annotationEntries (m : Mapping) : List OrderedEntry :=
  m.filterMap (fun p =>
    match p.2.audio, p.2.svgSelector with
    | some tr, some _ => some ⟨p.1, tr.start, tr.stop⟩
    | _, _ => none)

/-- `orderAnnotationMapping` from the script: the same reconciliation loop,
run over the filtered note records. -/
def orderAnnotationMapping (m : Mapping) : List Segment :=
  reconcile (annotationEntries m)

/-! ### The manifest assembler -/

/-- The body of the audio painting annotation. -/
structure MediaBody where
  id : String
  format : Option String
  type : Option String
deriving DecidableEq, Repr

/-- The audio painting annotation `audioCanvas.items[0].items[0]`. -/
structure PaintingContent where
  id : String
  body : MediaBody
deriving DecidableEq, Repr

/-- The audio canvas: its id, duration, the id of its annotation page
(`items[0].id`) and the audio annotation it carries. -/
structure AudioCanvas where
  id : String
  duration : JSNum
  pageId : String
  audioAnno : PaintingContent
deriving DecidableEq, Repr

/-- A resolved page image resource. -/
structure Resource where
  id : String
  width : JSNum
  height : JSNum
deriving DecidableEq, Repr

/-- `fixAudio` from the script: overwrite `body.format` and `body.type` of
the audio annotation.  The source mutates its argument in place and also
returns it; the returned value is the new state of that object. -/
def fixAudio (audio : PaintingContent) : PaintingContent :=
  { audio with body := { audio.body with format := some "audio/mpeg", type := some "Sound" } }

/-- The target of a painting annotation,
`canvasId#xywh=0,0,w,h&t=start,end`; the `xywh` and `t` suffixes are pure
renderings of the data kept here. -/
structure PaintingTarget where
  canvas : String
  w : JSNum
  h : JSNum
  tStart : JSNum
  tStop : JSNum
deriving DecidableEq, Repr

/-- One per-page painting annotation of the output manifest. -/
structure PageAnno where
  id : String
  body : Resource
  target : PaintingTarget
deriving DecidableEq, Repr

/-- One highlighting annotation of the output manifest: its id is
`https://example/image-anno/` followed by the note id, and its composite
target combines the note's SVG selector with its reconciled time range
(rendered by the source as `t=start,end`). -/
structure HighlightAnno where
  id : String
  source : String
  svg : Option SvgSel
  tStart : JSNum
  tStop : JSNum
deriving DecidableEq, Repr

/-- The highlighting annotations, one per note segment. -/
def buildHighlights (m : Mapping) (pageId : String) : List HighlightAnno :=
  (orderAnnotationMapping m).map (fun seg =>
    ⟨"https://example/image-anno/" ++ seg.id, pageId,
      (lookupRecord m seg.id).bind (fun r => r.svgSelector), seg.start, seg.stop⟩)

/-- All inputs the assembly stage reads (the lookup tables are modelled as
the resolving functions they implement; runs in which every lookup the
data performs succeeds). -/
structure AssemblerInputs where
  audioCanvas : AudioCanvas
  orderedCanvases : List Segment
  noteSegments : List Segment
  resourceMap : String → Resource
  canvasToServiceId : String → String
  mapping : Mapping

/-- The resource a page segment paints, resolved through
`canvasToServiceId` and `resourceMap`. -/
def segResource (inp : AssemblerInputs) (seg : Segment) : Resource :=
  inp.resourceMap (inp.canvasToServiceId seg.id)

/-- The output document. -/
structure Manifest where
  id : String
  duration : JSNum
  width : JSNum
  height : JSNum
  canvasId : String
  pageAnnoListId : String
  audio : PaintingContent
  pages : List PageAnno
  highlights : List HighlightAnno

/-- `Math.max(...)` over a list (the empty spread gives `-Infinity`). -/
def jsMaxList (l : List JSNum) : JSNum :=
  l.foldl jsMax ninf

/-- The per-page painting annotations of the output. -/
def buildPages (inp : AssemblerInputs) : List PageAnno :=
  (List.zip (List.range inp.orderedCanvases.length) inp.orderedCanvases).map
    (fun p =>
      ⟨"https://example/image-anno/" ++ toString p.1, segResource inp p.2,
        ⟨inp.audioCanvas.id, (segResource inp p.2).width, (segResource inp p.2).height,
          p.2.start, p.2.stop⟩⟩)

/-- The manifest assembly stage: compute the overall width and height, fix
the audio annotation (mutating the input's audio canvas — the second
component is the state of the inputs after assembly) and build the output
document. -/
def assembleManifest (inp : AssemblerInputs) : Manifest × AssemblerInputs :=
  let fixedAudio := fixAudio inp.audioCanvas.audioAnno
  let post : AssemblerInputs :=
    { inp with audioCanvas := { inp.audioCanvas with audioAnno := fixedAudio } }
  let width := jsMaxList (inp.orderedCanvases.map (fun c => (segResource inp c).width))
  let height := jsMaxList (inp.orderedCanvases.map (fun c => (segResource inp c).height))
  (⟨"https://example.org", inp.audioCanvas.duration, width, height,
    inp.audioCanvas.id, inp.audioCanvas.pageId, fixedAudio,
    buildPages inp, buildHighlights inp.mapping inp.audioCanvas.pageId⟩, post)

/-! ### Concrete instances used in the theorems below -/

/-- The worked accumulator of the specification:
`{A: {min: 0.37, max: 63.1}, B: {min: 64.15, max: 144.38}}`. -/
def exSpecAcc : List (String × MinMax) :=
  [("A", ⟨num (37/100), num (631/10)⟩), ("B", ⟨num (1283/20), num (7219/50)⟩)]

/-- The same accumulator with its two entries swapped. -/
def exSpecAccRev : List (String × MinMax) :=
  [("B", ⟨num (1283/20), num (7219/50)⟩), ("A", ⟨num (37/100), num (631/10)⟩)]

/-- An accumulator whose second observed range is nested inside the first:
`{A: {min: 0, max: 10}, B: {min: 1, max: 2}}`. -/
def exNested : List (String × MinMax) :=
  [("A", ⟨num 0, num 10⟩), ("B", ⟨num 1, num 2⟩)]

/-- An accumulator with tied minima, `{A: {0, 10}, B: {0, 0}}`. -/
def exTied : List (String × MinMax) :=
  [("A", ⟨num 0, num 10⟩), ("B", ⟨num 0, num 0⟩)]

/-- The same tied accumulator with its two entries swapped. -/
def exTiedRev : List (String × MinMax) :=
  [("B", ⟨num 0, num 0⟩), ("A", ⟨num 0, num 10⟩)]

/-- A spatial (image) annotation that passes the acceptance test. -/
def exImageAnno : RawAnno :=
  ⟨some ⟨some "svc1", some ⟨"FragmentSelector", "((P1,2)(P3,4)(P5,6))"⟩⟩⟩

/-- A trivial resolving environment. -/
def exEnv : ResolveEnv :=
  ⟨fun _ => "c1", fun _ => num 100, fun _ => num 200⟩

/-- A one-id spatial collection whose id never occurs temporally. -/
def exImageIn : List (String × List RawAnno) :=
  [("n1", [exImageAnno])]

/-- Concrete assembler inputs whose audio annotation declares the format
`audio/wav` before assembly. -/
def exAssembler : AssemblerInputs :=
  ⟨⟨"canvas0", num 60, "page0", ⟨"anno0", ⟨"media0", some "audio/wav", some "Sound"⟩⟩⟩,
    [], [], fun _ => ⟨"res", num 1, num 1⟩, fun s => s, []⟩

/-! ### Supporting lemmas: the stable sort -/

theorem sortInsert_perm (le : α → α → Bool) (a : α) (l : List α) :
    (sortInsert le a l).Perm (a :: l) := by
  induction l with
  | nil => simp [sortInsert]
  | cons b l ih =>
    by_cases h : le a b = true
    · simp [sortInsert, h]
    · simp only [sortInsert, h, if_false, Bool.false_eq_true]
      exact (ih.cons b).trans (List.Perm.swap a b l)

theorem sortEntries_perm (le : α → α → Bool) (l : List α) :
    (sortEntries le l).Perm l := by
  induction l with
  | nil => simp [sortEntries]
  | cons a l ih =>
    exact (sortInsert_perm le a (sortEntries le l)).trans (ih.cons a)

theorem pairwise_sortInsert (le : α → α → Bool) (a : α) (l : List α)
    (htot : ∀ x ∈ a :: l, ∀ y ∈ a :: l, le x y = true ∨ le y x = true)
    (htrans : ∀ x ∈ a :: l, ∀ y ∈ a :: l, ∀ z ∈ a :: l,
      le x y = true → le y z = true → le x z = true)
    (hp : List.Pairwise (fun x y => le x y = true) l) :
    List.Pairwise (fun x y => le x y = true) (sortInsert le a l) := by
  induction l with
  | nil => simp [sortInsert]
  | cons b l ih =>
    obtain ⟨hb, hl⟩ := List.pairwise_cons.1 hp
    have hsub : ∀ x, x ∈ a :: l → x ∈ a :: b :: l := by
      intro x hx
      rcases List.mem_cons.1 hx with rfl | hx
      · exact List.mem_cons_self x (b :: l)
      · exact List.mem_cons_of_mem a (List.mem_cons_of_mem b hx)
    by_cases h : le a b = true
    · simp only [sortInsert, h, if_true]
      refine List.pairwise_cons.2 ⟨?_, hp⟩
      intro x hx
      rcases List.mem_cons.1 hx with rfl | hx
      · exact h
      · exact htrans a (List.mem_cons_self a _) b (List.mem_cons_of_mem a (List.mem_cons_self b l))
          x (List.mem_cons_of_mem a (List.mem_cons_of_mem b hx)) h (hb x hx)
    · have hba : le b a = true :=
        (htot a (List.mem_cons_self a _) b (List.mem_cons_of_mem a (List.mem_cons_self b l))).resolve_left h
      simp only [sortInsert, h, if_false, Bool.false_eq_true]
      refine List.pairwise_cons.2 ⟨?_, ?_⟩
      · intro x hx
        have hx' : x ∈ a :: l := (sortInsert_perm le a l).mem_iff.1 hx
        rcases List.mem_cons.1 hx' with rfl | hx'
        · exact hba
        · exact hb x hx'
      · exact ih (fun x hx y hy => htot x (hsub x hx) y (hsub y hy))
          (fun x hx y hy z hz => htrans x (hsub x hx) y (hsub y hy) z (hsub z hz)) hl

theorem pairwise_sortEntries (le : α → α → Bool) (l : List α)
    (htot : ∀ x ∈ l, ∀ y ∈ l, le x y = true ∨ le y x = true)
    (htrans : ∀ x ∈ l, ∀ y ∈ l, ∀ z ∈ l,
      le x y = true → le y z = true → le x z = true) :
    List.Pairwise (fun x y => le x y = true) (sortEntries le l) := by
  induction l with
  | nil => simp [sortEntries]
  | cons a l ih =>
    have hmem : ∀ x, x ∈ a :: sortEntries le l → x ∈ a :: l := by
      intro x hx
      rcases List.mem_cons.1 hx with rfl | hx
      · exact List.mem_cons_self x l
      · exact List.mem_cons_of_mem a ((sortEntries_perm le l).mem_iff.1 hx)
    have hsubl : ∀ x, x ∈ l → x ∈ a :: l := fun x hx => List.mem_cons_of_mem a hx
    exact pairwise_sortInsert le a (sortEntries le l)
      (fun x hx y hy => htot x (hmem x hx) y (hmem y hy))
      (fun x hx y hy z hz => htrans x (hmem x hx) y (hmem y hy) z (hmem z hz))
      (ih (fun x hx y hy => htot x (hsubl x hx) y (hsubl y hy))
        (fun x hx y hy z hz => htrans x (hsubl x hx) y (hsubl y hy) z (hsubl z hz)))

theorem sorted_perm_unique (le : α → α → Bool) :
    ∀ (l1 l2 : List α), l1.Perm l2 →
      List.Pairwise (fun x y => le x y = true) l1 →
      List.Pairwise (fun x y => le x y = true) l2 →
      (∀ x ∈ l1, ∀ y ∈ l1, le x y = true → le y x = true → x = y) →
      l1 = l2
  | [], l2, hp, _, _, _ => (hp.symm.eq_nil).symm
  | x :: t1, l2, hp, hp1, hp2, hanti => by
    cases l2 with
    | nil => exact absurd hp.eq_nil (by simp)
    | cons y t2 =>
      by_cases hxy : x = y
      · subst hxy
        have ht := sorted_perm_unique le t1 t2 hp.cons_inv
          (List.pairwise_cons.1 hp1).2 (List.pairwise_cons.1 hp2).2
          (fun u hu v hv => hanti u (List.mem_cons_of_mem x hu) v (List.mem_cons_of_mem x hv))
        rw [ht]
      · exfalso
        have hx2 : x ∈ y :: t2 := hp.mem_iff.1 (List.mem_cons_self x t1)
        have hxt2 : x ∈ t2 := by
          rcases List.mem_cons.1 hx2 with h | h
          · exact absurd h hxy
          · exact h
        have hy1 : y ∈ x :: t1 := hp.mem_iff.2 (List.mem_cons_self y t2)
        have hyt1 : y ∈ t1 := by
          rcases List.mem_cons.1 hy1 with h | h
          · exact absurd h.symm hxy
          · exact h
        have hPxy : le x y = true := (List.pairwise_cons.1 hp1).1 y hyt1
        have hPyx : le y x = true := (List.pairwise_cons.1 hp2).1 x hxt2
        exact hxy (hanti x (List.mem_cons_self x t1) y (List.mem_cons_of_mem x hyt1) hPxy hPyx)

/-! ### Supporting lemmas: the reconciliation loop -/

theorem getLast?_cons_ne_nil (a : α) (l : List α) (h : l ≠ []) :
    (a :: l).getLast? = l.getLast? := by
  cases l with
  | nil => exact absurd rfl h
  | cons b t => exact List.getLast?_cons_cons

theorem segmentsLoop_ne_nil : ∀ (e : OrderedEntry) (l : List OrderedEntry) (s : JSNum),
    segmentsLoop (e :: l) s ≠ []
  | _, [], _ => by simp [segmentsLoop]
  | _, _ :: _, _ => by simp [segmentsLoop]

theorem segmentsLoop_head_start : ∀ (e : OrderedEntry) (l : List OrderedEntry) (s : JSNum),
    (segmentsLoop (e :: l) s).head?.map Segment.start = some s
  | _, [], _ => rfl
  | _, _ :: _, _ => rfl

theorem segmentsLoop_chain : ∀ (l : List OrderedEntry) (s : JSNum),
    List.Chain' (fun x y => x.stop = y.start) (segmentsLoop l s)
  | [], _ => List.chain'_nil
  | [e], s => by
    simp only [segmentsLoop]
    exact List.chain'_singleton _
  | e :: f :: rest, s => by
    have ih := segmentsLoop_chain (f :: rest) (jsHalf (jsAdd e.originalMax f.originalMin))
    simp only [segmentsLoop]
    refine List.Chain'.cons' ih ?_
    intro y hy
    have hh := segmentsLoop_head_start f rest (jsHalf (jsAdd e.originalMax f.originalMin))
    cases hcase : (segmentsLoop (f :: rest) (jsHalf (jsAdd e.originalMax f.originalMin))).head? with
    | none => rw [hcase] at hy; exact absurd hy (by simp)
    | some z =>
      rw [hcase] at hy hh
      simp only [Option.mem_def, Option.some.injEq] at hy
      subst hy
      simp only [Option.map_some', Option.some.injEq] at hh
      exact hh.symm

theorem segmentsLoop_getLast_stop : ∀ (e : OrderedEntry) (l : List OrderedEntry) (s : JSNum),
    (segmentsLoop (e :: l) s).getLast?.map Segment.stop
      = ((e :: l).getLast?).map OrderedEntry.originalMax
  | _, [], _ => rfl
  | e, f :: rest, s => by
    have ih := segmentsLoop_getLast_stop f rest (jsHalf (jsAdd e.originalMax f.originalMin))
    simp only [segmentsLoop]
    rw [getLast?_cons_ne_nil _ _ (segmentsLoop_ne_nil f rest _), List.getLast?_cons_cons]
    exact ih

theorem segmentsLoop_ids : ∀ (l : List OrderedEntry) (s : JSNum),
    (segmentsLoop l s).map Segment.id = l.map OrderedEntry.id
  | [], _ => rfl
  | [_], _ => rfl
  | e :: f :: rest, s => by
    simp only [segmentsLoop, List.map_cons]
    rw [segmentsLoop_ids (f :: rest) (jsHalf (jsAdd e.originalMax f.originalMin))]
    simp

theorem segmentsLoop_bounds : ∀ (l : List OrderedEntry) (s : ℚ),
    (∀ x ∈ l, ∃ a b : ℚ, x.originalMin = num a ∧ x.originalMax = num b ∧ a ≤ b) →
    List.Chain' (fun x y => jsLtP x.originalMax y.originalMin) l →
    (∀ e ∈ l.head?, ∃ a : ℚ, e.originalMin = num a ∧ s ≤ a) →
    (∀ seg ∈ segmentsLoop l (num s), ∃ u v : ℚ,
        seg.start = num u ∧ seg.stop = num v ∧ u ≤ v ∧ s ≤ u) ∧
    List.Pairwise (fun x y => jsLtP x.start y.start) (segmentsLoop l (num s)) ∧
    List.Pairwise (fun x y => jsLeP x.stop y.start) (segmentsLoop l (num s))
  | [], s, _, _, _ => by
    refine ⟨?_, ?_, ?_⟩ <;> simp [segmentsLoop]
  | [e], s, hf, _, hh => by
    obtain ⟨a, b, hmin, hmax, hab⟩ := hf e (List.mem_cons_self e [])
    obtain ⟨a', hmin', hsa⟩ := hh e (by simp)
    have haa : a' = a := by
      rw [hmin] at hmin'
      exact (JSNum.num.injEq a' a).mp hmin'.symm
    subst haa
    refine ⟨?_, ?_, ?_⟩
    · intro seg hseg
      simp only [segmentsLoop, List.mem_singleton] at hseg
      subst hseg
      exact ⟨s, b, rfl, hmax, by linarith, le_refl s⟩
    · simp [segmentsLoop]
    · simp [segmentsLoop]
  | e :: f :: rest, s, hf, hc, hh => by
    obtain ⟨a, b, hmine, hmaxe, habe⟩ := hf e (List.mem_cons_self e _)
    obtain ⟨c, d, hminf, hmaxf, habf⟩ := hf f (List.mem_cons_of_mem e (List.mem_cons_self f rest))
    obtain ⟨a', hmin', hsa⟩ := hh e (by simp)
    have haa : a' = a := by
      rw [hmine] at hmin'
      exact (JSNum.num.injEq a' a).mp hmin'.symm
    subst haa
    obtain ⟨hsep, hc'⟩ := List.chain'_cons.1 hc
    rw [hmaxe, hminf] at hsep
    have hbc : b < c := hsep
    have hmid : jsHalf (jsAdd e.originalMax f.originalMin) = num ((b + c) / 2) := by
      rw [hmaxe, hminf]; simp [jsAdd, jsHalf]
    have hbmid : b < (b + c) / 2 := by linarith
    have hmidc : (b + c) / 2 < c := by linarith
    have ih := segmentsLoop_bounds (f :: rest) ((b + c) / 2)
      (fun x hx => hf x (List.mem_cons_of_mem e hx)) hc'
      (by
        intro z hz
        simp only [List.head?_cons, Option.mem_def, Option.some.injEq] at hz
        subst hz
        exact ⟨c, hminf, le_of_lt hmidc⟩)
    simp only [segmentsLoop, hmid]
    refine ⟨?_, ?_, ?_⟩
    · intro seg hseg
      rcases List.mem_cons.1 hseg with rfl | hseg
      · exact ⟨s, (b + c) / 2, rfl, rfl, by linarith, le_refl s⟩
      · obtain ⟨u, v, hu, hv, huv, hmu⟩ := ih.1 seg hseg
        exact ⟨u, v, hu, hv, huv, by linarith⟩
    · refine List.pairwise_cons.2 ⟨?_, ih.2.1⟩
      intro x hx
      obtain ⟨u, v, hu, hv, huv, hmu⟩ := ih.1 x hx
      simp only [Segment.start] at hu ⊢
      rw [hu]
      show jsLtP (num s) (num u)
      simp only [jsLtP]
      linarith
    · refine List.pairwise_cons.2 ⟨?_, ih.2.2⟩
      intro x hx
      obtain ⟨u, v, hu, hv, huv, hmu⟩ := ih.1 x hx
      rw [hu]
      show jsLeP (num ((b + c) / 2)) (num u)
      simp only [jsLeP]
      linarith

/-! ### Supporting lemmas: the full reconciler -/

theorem jsLeb_total (a b : JSNum) : jsLeb a b = true ∨ jsLeb b a = true := by
  cases a <;> cases b <;> simp [jsLeb]
  exact le_total _ _

theorem leMin_trans_of_fin {x y z : OrderedEntry}
    (hx : ∃ a : ℚ, x.originalMin = num a) (hy : ∃ a : ℚ, y.originalMin = num a)
    (hz : ∃ a : ℚ, z.originalMin = num a) :
    leMin x y = true → leMin y z = true → leMin x z = true := by
  obtain ⟨a, ha⟩ := hx
  obtain ⟨b, hb⟩ := hy
  obtain ⟨c, hc⟩ := hz
  unfold leMin
  rw [ha, hb, hc]
  simp [jsLeb]
  exact le_trans

theorem pairwise_head_min (l : List OrderedEntry)
    (hfin : ∀ x ∈ l, ∃ a : ℚ, x.originalMin = num a)
    (hp : List.Pairwise (fun x y => leMin x y = true) l) :
    ∀ h ∈ l.head?, ∀ x ∈ l, jsLeP h.originalMin x.originalMin := by
  intro h hh x hx
  cases l with
  | nil => simp at hh
  | cons e t =>
    have heh : h = e := by
      simp only [List.head?_cons, Option.mem_def, Option.some.injEq] at hh
      exact hh.symm
    subst heh
    rcases List.mem_cons.1 hx with heq | hx'
    · subst heq
      obtain ⟨a, ha⟩ := hfin x (List.mem_cons_self x t)
      rw [ha]
      simp [jsLeP]
    · have hle := (List.pairwise_cons.1 hp).1 x hx'
      obtain ⟨a, ha⟩ := hfin h (List.mem_cons_self h t)
      obtain ⟨b, hb⟩ := hfin x (List.mem_cons_of_mem h hx')
      unfold leMin at hle
      rw [ha, hb] at hle
      simp [jsLeb] at hle
      rw [ha, hb]
      simpa [jsLeP] using hle

theorem chain_sep_last_max : ∀ (l : List OrderedEntry),
    (∀ x ∈ l, ∃ a b : ℚ, x.originalMin = num a ∧ x.originalMax = num b ∧ a ≤ b) →
    List.Chain' (fun x y => jsLtP x.originalMax y.originalMin) l →
    ∀ x ∈ l, ∀ z ∈ l.getLast?, jsLeP x.originalMax z.originalMax
  | [], _, _ => by
    intro x hx
    simp at hx
  | [e], hf, _ => by
    intro x hx z hz
    simp only [List.mem_singleton] at hx
    simp only [List.getLast?_singleton, Option.mem_def, Option.some.injEq] at hz
    subst hx
    subst hz
    obtain ⟨a, b, _, hmax, _⟩ := hf x (List.mem_cons_self x [])
    rw [hmax]
    simp [jsLeP]
  | e :: f :: rest, hf, hc => by
    intro x hx z hz
    obtain ⟨hsep, hc'⟩ := List.chain'_cons.1 hc
    have hf' : ∀ y ∈ f :: rest, ∃ a b : ℚ,
        y.originalMin = num a ∧ y.originalMax = num b ∧ a ≤ b :=
      fun y hy => hf y (List.mem_cons_of_mem e hy)
    have ih := chain_sep_last_max (f :: rest) hf' hc'
    have hz' : z ∈ (f :: rest).getLast? := by
      rwa [List.getLast?_cons_cons] at hz
    rcases List.mem_cons.1 hx with rfl | hx'
    · obtain ⟨a, b, hmine, hmaxe, habe⟩ := hf x (List.mem_cons_self x _)
      obtain ⟨c, d, hminf, hmaxf, habf⟩ := hf f (List.mem_cons_of_mem x (List.mem_cons_self f rest))
      rw [hmaxe, hminf] at hsep
      have hfz := ih f (List.mem_cons_self f rest) z hz'
      rw [hmaxf] at hfz
      cases hzm : z.originalMax with
      | nan => rw [hzm] at hfz; simp [jsLeP] at hfz
      | inf => rw [hzm] at hfz; simp [jsLeP] at hfz
      | ninf => rw [hzm] at hfz; simp [jsLeP] at hfz
      | num zd =>
        rw [hzm] at hfz
        simp only [jsLeP] at hfz
        simp only [jsLtP] at hsep
        rw [hmaxe]
        simp only [jsLeP]
        linarith
    · exact ih x hx' z hz'

theorem reconcile_chain (E : List OrderedEntry) :
    List.Chain' (fun x y => x.stop = y.start) (reconcile E) := by
  unfold reconcile
  cases hS : sortEntries leMin E with
  | nil => exact List.chain'_nil
  | cons e rest => exact segmentsLoop_chain (e :: rest) e.originalMin

theorem reconcile_head_start (E : List OrderedEntry) :
    (reconcile E).head?.map Segment.start
      = (sortEntries leMin E).head?.map OrderedEntry.originalMin := by
  unfold reconcile
  cases hS : sortEntries leMin E with
  | nil => rfl
  | cons e rest => rw [segmentsLoop_head_start]; rfl

theorem reconcile_ids_perm (E : List OrderedEntry) :
    ((reconcile E).map Segment.id).Perm (E.map OrderedEntry.id) := by
  unfold reconcile
  cases hS : sortEntries leMin E with
  | nil =>
    have hperm := sortEntries_perm leMin E
    rw [hS] at hperm
    rw [hperm.symm.eq_nil]
    exact List.Perm.nil
  | cons e rest =>
    have hperm := sortEntries_perm leMin E
    rw [hS] at hperm
    rw [segmentsLoop_ids]
    exact hperm.map OrderedEntry.id

theorem reconcile_props (E : List OrderedEntry)
    (hne : E ≠ [])
    (hfin : ∀ x ∈ E, ∃ a b : ℚ, x.originalMin = num a ∧ x.originalMax = num b ∧ a ≤ b)
    (hdisj : List.Pairwise
      (fun x y => jsLtP x.originalMax y.originalMin ∨ jsLtP y.originalMax x.originalMin) E) :
    (∃ mn, (reconcile E).head?.map Segment.start = some mn ∧
      (∀ p ∈ E, jsLeP mn p.originalMin) ∧ ∃ p ∈ E, p.originalMin = mn) ∧
    (∃ mx, (reconcile E).getLast?.map Segment.stop = some mx ∧
      (∀ p ∈ E, jsLeP p.originalMax mx) ∧ ∃ p ∈ E, p.originalMax = mx) ∧
    List.Pairwise (fun x y => jsLtP x.start y.start) (reconcile E) ∧
    List.Pairwise (fun x y => jsLeP x.stop y.start) (reconcile E) ∧
    List.Chain' (fun x y => x.stop = y.start) (reconcile E) ∧
    (∀ seg ∈ reconcile E, jsLeP seg.start seg.stop) := by
  have hperm := sortEntries_perm leMin E
  have hfinS : ∀ x ∈ sortEntries leMin E, ∃ a b : ℚ,
      x.originalMin = num a ∧ x.originalMax = num b ∧ a ≤ b :=
    fun x hx => hfin x (hperm.mem_iff.1 hx)
  have hfmin : ∀ x ∈ E, ∃ a : ℚ, x.originalMin = num a := by
    intro x hx
    obtain ⟨a, b, h1, _, _⟩ := hfin x hx
    exact ⟨a, h1⟩
  have hsorted : List.Pairwise (fun x y => leMin x y = true) (sortEntries leMin E) :=
    pairwise_sortEntries leMin E (fun x _ y _ => jsLeb_total _ _)
      (fun x hx y hy z hz =>
        leMin_trans_of_fin (hfmin x hx) (hfmin y hy) (hfmin z hz))
  have hdisjS : List.Pairwise
      (fun x y => jsLtP x.originalMax y.originalMin ∨ jsLtP y.originalMax x.originalMin)
      (sortEntries leMin E) :=
    (hperm.pairwise_iff (fun h => h.symm)).2 hdisj
  have hsep : List.Pairwise (fun x y => jsLtP x.originalMax y.originalMin)
      (sortEntries leMin E) := by
    refine (hsorted.and hdisjS).imp_of_mem ?_
    intro x y hxm hym hxy
    obtain ⟨hle, hd⟩ := hxy
    obtain ⟨a, b, hax, hbx, habx⟩ := hfinS x hxm
    obtain ⟨c, d, hcy, hdy, hcdy⟩ := hfinS y hym
    rcases hd with h1 | h2
    · exact h1
    · exfalso
      unfold leMin at hle
      rw [hax, hcy] at hle
      simp [jsLeb] at hle
      rw [hdy, hax] at h2
      simp only [jsLtP] at h2
      linarith
  have hchainsep := hsep.chain'
  cases hS : sortEntries leMin E with
  | nil =>
    exfalso
    rw [hS] at hperm
    exact hne hperm.symm.eq_nil
  | cons e rest =>
    rw [hS] at hperm hfinS hsorted hchainsep
    obtain ⟨a0, b0, ha0, hb0, hab0⟩ := hfinS e (List.mem_cons_self e rest)
    have hrec : reconcile E = segmentsLoop (e :: rest) (num a0) := by
      unfold reconcile
      rw [hS]
      show segmentsLoop (e :: rest) e.originalMin = segmentsLoop (e :: rest) (num a0)
      rw [ha0]
    have hbounds := segmentsLoop_bounds (e :: rest) a0 hfinS hchainsep
      (by
        intro z hz
        simp only [List.head?_cons, Option.mem_def, Option.some.injEq] at hz
        subst hz
        exact ⟨a0, ha0, le_refl a0⟩)
    have hlastz : ∃ z, (e :: rest).getLast? = some z := by
      cases hgl : (e :: rest).getLast? with
      | none => exact absurd (List.getLast?_eq_none_iff.1 hgl) (by simp)
      | some z => exact ⟨z, rfl⟩
    obtain ⟨z, hz⟩ := hlastz
    have hzmem : z ∈ e :: rest := List.mem_of_mem_getLast? (by rw [hz]; rfl)
    refine ⟨?_, ?_, ?_, ?_, ?_, ?_⟩
    · refine ⟨e.originalMin, ?_, ?_, ?_⟩
      · rw [hrec, ha0, segmentsLoop_head_start]
      · intro p hp
        refine pairwise_head_min (e :: rest) ?_ hsorted e (by simp) p (hperm.mem_iff.2 hp)
        intro x hx
        obtain ⟨a, b, h1, _, _⟩ := hfinS x hx
        exact ⟨a, h1⟩
      · exact ⟨e, hperm.mem_iff.1 (List.mem_cons_self e rest), rfl⟩
    · refine ⟨z.originalMax, ?_, ?_, ?_⟩
      · rw [hrec, segmentsLoop_getLast_stop, hz]
        rfl
      · intro p hp
        exact chain_sep_last_max (e :: rest) hfinS hchainsep p (hperm.mem_iff.2 hp)
          z (by rw [hz]; rfl)
      · exact ⟨z, hperm.mem_iff.1 hzmem, rfl⟩
    · rw [hrec]
      exact hbounds.2.1
    · rw [hrec]
      exact hbounds.2.2
    · rw [hrec]
      exact segmentsLoop_chain (e :: rest) (num a0)
    · intro seg hseg
      rw [hrec] at hseg
      obtain ⟨u, v, hu, hv, huv, _⟩ := hbounds.1 seg hseg
      rw [hu, hv]
      simpa [jsLeP] using huv

theorem reconcile_perm_eq (E1 E2 : List OrderedEntry) (hp : E1.Perm E2)
    (hfin : ∀ x ∈ E1, ∃ a : ℚ, x.originalMin = num a)
    (hnd : (E1.map OrderedEntry.originalMin).Nodup) :
    reconcile E1 = reconcile E2 := by
  have hfin2 : ∀ x ∈ E2, ∃ a : ℚ, x.originalMin = num a :=
    fun x hx => hfin x (hp.mem_iff.2 hx)
  have hs1 := sortEntries_perm leMin E1
  have hs2 := sortEntries_perm leMin E2
  have hperm12 : (sortEntries leMin E1).Perm (sortEntries leMin E2) :=
    hs1.trans (hp.trans hs2.symm)
  have hp1 : List.Pairwise (fun x y => leMin x y = true) (sortEntries leMin E1) :=
    pairwise_sortEntries leMin E1 (fun x _ y _ => jsLeb_total _ _)
      (fun x hx y hy z hz => leMin_trans_of_fin (hfin x hx) (hfin y hy) (hfin z hz))
  have hp2 : List.Pairwise (fun x y => leMin x y = true) (sortEntries leMin E2) :=
    pairwise_sortEntries leMin E2 (fun x _ y _ => jsLeb_total _ _)
      (fun x hx y hy z hz => leMin_trans_of_fin (hfin2 x hx) (hfin2 y hy) (hfin2 z hz))
  have hanti : ∀ x ∈ sortEntries leMin E1, ∀ y ∈ sortEntries leMin E1,
      leMin x y = true → leMin y x = true → x = y := by
    intro x hx y hy hxy hyx
    have hx1 : x ∈ E1 := hs1.mem_iff.1 hx
    have hy1 : y ∈ E1 := hs1.mem_iff.1 hy
    obtain ⟨a, ha⟩ := hfin x hx1
    obtain ⟨b, hb⟩ := hfin y hy1
    unfold leMin at hxy hyx
    rw [ha, hb] at hxy
    rw [hb, ha] at hyx
    simp [jsLeb] at hxy hyx
    have hmins : x.originalMin = y.originalMin := by
      rw [ha, hb, le_antisymm hxy hyx]
    exact List.inj_on_of_nodup_map hnd hx1 hy1 hmins
  have hSeq : sortEntries leMin E1 = sortEntries leMin E2 :=
    sorted_perm_unique leMin _ _ hperm12 hp1 hp2 hanti
  unfold reconcile
  rw [hSeq]

/-! ### Supporting lemmas: the temporal fragment parser -/

theorem findTEq_none_of_absent (l : List Char) (h : ¬ (['t', '='] <:+: l)) :
    findTEq l = none := by
  induction l with
  | nil => rfl
  | cons c rest ih =>
    have hni : ¬ (['t', '='] <:+: rest) := by
      intro hinf
      obtain ⟨s, t, hst⟩ := hinf
      refine h ⟨c :: s, t, ?_⟩
      rw [← hst]
      simp only [List.cons_append]
    by_cases hc : c = 't' ∧ rest.head? = some '='
    · exfalso
      obtain ⟨hct, hh⟩ := hc
      cases rest with
      | nil => simp at hh
      | cons c2 r2 =>
        simp only [List.head?_cons, Option.some.injEq] at hh
        refine h ⟨[], r2, ?_⟩
        rw [hct, hh]
        rfl
    · simp only [findTEq]
      rw [if_neg hc]
      exact ih hni

theorem findTEq_append (a b : List Char) (h : ¬ (['t', '='] <:+: a)) :
    findTEq (a ++ 't' :: '=' :: b) = some b := by
  induction a with
  | nil => simp [findTEq]
  | cons c a' ih =>
    have hni : ¬ (['t', '='] <:+: a') := by
      intro hinf
      obtain ⟨s, t, hst⟩ := hinf
      refine h ⟨c :: s, t, ?_⟩
      rw [← hst]
      simp only [List.cons_append]
    rw [List.cons_append]
    by_cases hc : c = 't' ∧ (a' ++ 't' :: '=' :: b).head? = some '='
    · exfalso
      obtain ⟨hct, hh⟩ := hc
      cases a' with
      | nil =>
        simp only [List.nil_append, List.head?_cons, Option.some.injEq] at hh
        exact absurd hh (by decide)
      | cons c2 r2 =>
        simp only [List.cons_append, List.head?_cons, Option.some.injEq] at hh
        refine h ⟨[], r2, ?_⟩
        rw [hct, hh]
        rfl
    · simp only [findTEq]
      rw [if_neg hc]
      exact ih hni

theorem findTEq_head (b : List Char) : findTEq ('t' :: '=' :: b) = some b := by
  simp [findTEq]

theorem takeDigits_all (l : List Char) (h : ∀ c ∈ l, c.isDigit = true) :
    takeDigits l = (l, []) := by
  induction l with
  | nil => rfl
  | cons c r ih =>
    have hc := h c (List.mem_cons_self c r)
    simp only [takeDigits, hc, if_true]
    rw [ih (fun x hx => h x (List.mem_cons_of_mem c hx))]

theorem takeDigits_none (l : List Char) (h : ∀ c ∈ l, c.isDigit = false) :
    takeDigits l = ([], l) := by
  cases l with
  | nil => rfl
  | cons c r =>
    have hc := h c (List.mem_cons_self c r)
    simp [takeDigits, hc]

theorem parseNum_all (l : List Char) (hne : l ≠ []) (h : ∀ c ∈ l, c.isDigit = true) :
    parseNum l = some ((digitsToNat l : ℚ), []) := by
  unfold parseNum
  rw [takeDigits_all l h]
  simp [hne]

theorem parseNum_none_nodigit (l : List Char) (h : ∀ c ∈ l, c.isDigit = false) :
    parseNum l = none := by
  unfold parseNum
  rw [takeDigits_none l h]
  simp

theorem parseNum_none_head (c : Char) (r : List Char) (hc : c.isDigit = false) :
    parseNum (c :: r) = none := by
  unfold parseNum
  have ht : takeDigits (c :: r) = ([], c :: r) := by simp [takeDigits, hc]
  rw [ht]
  simp

theorem commaNumber_nodigit (l : List Char) (h : ∀ c ∈ l, c.isDigit = false) :
    commaNumber l = none := by
  unfold commaNumber
  by_cases hh : l.head? = some ','
  · rw [if_pos hh]
    cases l with
    | nil => simp at hh
    | cons c r =>
      simp only [List.tail_cons]
      rw [parseNum_none_nodigit r (fun x hx => h x (List.mem_cons_of_mem c hx))]
      rfl
  · rw [if_neg hh]

theorem commaNumber_comma_digits (ds : List Char) (hne : ds ≠ [])
    (hall : ∀ c ∈ ds, c.isDigit = true) :
    commaNumber (',' :: ds) = some ((digitsToNat ds : ℚ)) := by
  unfold commaNumber
  have hcond : (',' :: ds).head? = some ',' := rfl
  rw [if_pos hcond]
  simp only [List.tail_cons]
  rw [parseNum_all ds hne hall]
  rfl

theorem parseGroup36_nodigit (r : List Char) (h : ∀ c ∈ r, c.isDigit = false) :
    parseGroup36 r = (nan, nan) := by
  unfold parseGroup36
  rw [parseNum_none_nodigit r h, commaNumber_nodigit r h]

theorem parseGroup36_digits (ds : List Char) (hne : ds ≠ [])
    (hall : ∀ c ∈ ds, c.isDigit = true) :
    parseGroup36 ds = (num (digitsToNat ds : ℚ), nan) := by
  unfold parseGroup36
  rw [parseNum_all ds hne hall]
  rfl

theorem parseGroup36_comma_digits (ds : List Char) (hne : ds ≠ [])
    (hall : ∀ c ∈ ds, c.isDigit = true) :
    parseGroup36 (',' :: ds) = (nan, num (digitsToNat ds : ℚ)) := by
  unfold parseGroup36
  rw [parseNum_none_head ',' ds (by decide), commaNumber_comma_digits ds hne hall]

theorem matchTemporal_nodigit (b : List Char) (h : ∀ c ∈ b, c.isDigit = false) :
    matchTemporal b = (nan, nan) := by
  unfold matchTemporal
  by_cases ht : b.take 4 = ['n', 'p', 't', ':']
  · rw [if_pos ht]
    exact parseGroup36_nodigit _ (fun c hc => h c (List.drop_subset 4 b hc))
  · rw [if_neg ht]
    exact parseGroup36_nodigit b h

theorem matchTemporal_digits (ds : List Char) (hne : ds ≠ [])
    (hall : ∀ c ∈ ds, c.isDigit = true) :
    matchTemporal ds = (num (digitsToNat ds : ℚ), nan) := by
  unfold matchTemporal
  have hnpt : ¬ (ds.take 4 = ['n', 'p', 't', ':']) := by
    intro ht
    have hn : 'n' ∈ ds := List.take_subset 4 ds (by rw [ht]; exact List.mem_cons_self _ _)
    exact absurd (hall 'n' hn) (by decide)
  rw [if_neg hnpt]
  exact parseGroup36_digits ds hne hall

theorem matchTemporal_comma_digits (ds : List Char) (hne : ds ≠ [])
    (hall : ∀ c ∈ ds, c.isDigit = true) :
    matchTemporal (',' :: ds) = (nan, num (digitsToNat ds : ℚ)) := by
  unfold matchTemporal
  have hnpt : ¬ ((',' :: ds).take 4 = ['n', 'p', 't', ':']) := by
    intro ht
    rw [List.take_succ_cons] at ht
    injection ht with h1 _
    exact absurd h1 (by decide)
  rw [if_neg hnpt]
  exact parseGroup36_comma_digits ds hne hall

/-! ### Supporting lemmas: the identifier join -/

theorem lookupRecord_setRecord_ne (m : Mapping) (id id' : String)
    (f : NoteRecord → NoteRecord) (h : id ≠ id') :
    lookupRecord (setRecord m id f) id' = lookupRecord m id' := by
  induction m with
  | nil =>
    simp only [setRecord, lookupRecord]
    rw [if_neg h]
  | cons p r ih =>
    simp only [setRecord]
    by_cases hp : p.1 = id
    · rw [if_pos hp]
      simp only [lookupRecord]
      have hq : ¬ (p.1 = id') := by rw [hp]; exact h
      rw [if_neg hq, if_neg hq]
    · rw [if_neg hp]
      simp only [lookupRecord]
      by_cases hq : p.1 = id'
      · rw [if_pos hq, if_pos hq]
      · rw [if_neg hq, if_neg hq]
        exact ih

theorem lookupRecord_none_processAudioList (annos : List RawAnno) (m : Mapping)
    (id id' : String) (h : id ≠ id') (hm : lookupRecord m id' = none) :
    lookupRecord (processAudioList m id annos) id' = none := by
  induction annos generalizing m with
  | nil => simpa [processAudioList]
  | cons anno rest ih =>
    cases ha : accepted anno with
    | true =>
      simp only [processAudioList, ha, if_true]
      exact ih _ (by rw [lookupRecord_setRecord_ne _ _ _ _ h]; exact hm)
    | false =>
      simp only [processAudioList, ha, Bool.false_eq_true, if_false]
      exact ih _ hm

theorem lookupRecord_none_processAudio (input : List (String × List RawAnno))
    (id' : String) (h : id' ∉ input.map Prod.fst) :
    lookupRecord (processAudio input) id' = none := by
  suffices haux : ∀ (inp : List (String × List RawAnno)) (m : Mapping),
      lookupRecord m id' = none → id' ∉ inp.map Prod.fst →
      lookupRecord (inp.foldl (fun m p => processAudioList m p.1 p.2) m) id' = none by
    exact haux input [] rfl h
  intro inp
  induction inp with
  | nil =>
    intro m hm _
    simpa
  | cons p rest ih =>
    intro m hm hnotin
    simp only [List.map_cons, List.mem_cons] at hnotin
    push_neg at hnotin
    obtain ⟨h1, h2⟩ := hnotin
    simp only [List.foldl_cons]
    exact ih _ (lookupRecord_none_processAudioList p.2 m p.1 id' (fun he => h1 he.symm) hm) h2

theorem lookupRecord_none_updateRecord (m : Mapping) (id : String)
    (f : NoteRecord → NoteRecord) (id' : String) (hm : lookupRecord m id' = none) :
    lookupRecord (updateRecord m id f) id' = none := by
  induction m with
  | nil => simpa [updateRecord]
  | cons p r ih =>
    simp only [lookupRecord] at hm
    by_cases hq : p.1 = id'
    · rw [if_pos hq] at hm
      cases hm
    · rw [if_neg hq] at hm
      simp only [updateRecord]
      by_cases hp : p.1 = id
      · rw [if_pos hp]
        simp only [lookupRecord]
        rw [if_neg hq]
        exact hm
      · rw [if_neg hp]
        simp only [lookupRecord]
        rw [if_neg hq]
        exact ih hm

theorem lookupRecord_none_processImageList (annos : List RawAnno) (env : ResolveEnv)
    (st : JoinState) (id id' : String) (hm : lookupRecord st.mapping id' = none) :
    lookupRecord (processImageList env st id annos).mapping id' = none := by
  induction annos generalizing st with
  | nil => simpa [processImageList]
  | cons anno rest ih =>
    cases ha : accepted anno with
    | false =>
      simp only [processImageList, ha, Bool.false_eq_true, if_false]
      exact ih st hm
    | true =>
      simp only [processImageList, ha, if_true]
      split
      · exact hm
      · split
        · exact hm
        · exact ih _ (lookupRecord_none_updateRecord st.mapping id _ id' hm)

theorem lookupRecord_none_processImage (env : ResolveEnv) (m : Mapping)
    (input : List (String × List RawAnno)) (id' : String)
    (hm : lookupRecord m id' = none) :
    lookupRecord (processImage env m input).mapping id' = none := by
  suffices haux : ∀ (inp : List (String × List RawAnno)) (st : JoinState),
      lookupRecord st.mapping id' = none →
      lookupRecord ((inp.foldl (fun st p => processImageList env st p.1 p.2) st)).mapping id'
        = none by
    exact haux input ⟨m, []⟩ hm
  intro inp
  induction inp with
  | nil =>
    intro st hst
    simpa
  | cons p rest ih =>
    intro st hst
    simp only [List.foldl_cons]
    exact ih _ (lookupRecord_none_processImageList p.2 env st p.1 id' hst)

theorem lookupRecord_ne_none_of_mem (m : Mapping) (p : String × NoteRecord) (hp : p ∈ m) :
    lookupRecord m p.1 ≠ none := by
  induction m with
  | nil => simp at hp
  | cons q r ih =>
    rcases List.mem_cons.1 hp with heq | hmem
    · subst heq
      simp [lookupRecord]
    · by_cases hq : q.1 = p.1
      · simp [lookupRecord, hq]
      · simp only [lookupRecord, hq, if_false]
        exact ih hmem

theorem annotationEntries_mem (m : Mapping) (e : OrderedEntry)
    (he : e ∈ annotationEntries m) : ∃ p ∈ m, p.1 = e.id := by
  unfold annotationEntries at he
  obtain ⟨p, hp, hfp⟩ := List.mem_filterMap.1 he
  refine ⟨p, hp, ?_⟩
  cases hau : p.2.audio with
  | none =>
    rw [hau] at hfp
    cases hfp
  | some tr =>
    cases hsvg : p.2.svgSelector with
    | none =>
      rw [hau, hsvg] at hfp
      cases hfp
    | some sv =>
      rw [hau, hsvg] at hfp
      have := Option.some.inj hfp
      rw [← this]

theorem string_append_cancel {s a b : String} (h : s ++ a = s ++ b) : a = b := by
  apply String.ext
  have hd := congrArg String.data h
  rw [String.data_append, String.data_append] at hd
  exact List.append_cancel_left hd

/-! ### Auxiliary bridging lemma for the claims on `getTime` -/

theorem getTime_of_findTEq (s : String) (rest : List Char)
    (h : findTEq s.data = some rest) :
    getTime s = ⟨(matchTemporal rest).1, (matchTemporal rest).2⟩ := by
  unfold getTime
  rw [h]

/-! ### The claims -/

/-- C1 (counterexample): on the accumulator `{A: {0, 10}, B: {1, 2}}`, whose
second observed range is nested inside the first, the maximum observed
maximum is `10` (attained by entry `A`), yet the reconciled partition ends
at `2`, so the segments do not cover the interval up to the maximum
`observedMax` as the claim requires. -/
theorem C1_counterexample :
    (⟨"A", num 0, num 10⟩ : OrderedEntry) ∈ canvasEntries exNested ∧
    (∀ p ∈ canvasEntries exNested, jsLeP p.originalMax (num 10)) ∧
    (orderCanvasMapping exNested).getLast?.map Segment.stop = some (num 2) ∧
    (num 2 : JSNum) ≠ num 10 := by
  have h1 : orderCanvasMapping exNested
      = [⟨"A", num 0, num (11/2)⟩, ⟨"B", num (11/2), num 2⟩] := by
    norm_num [orderCanvasMapping, canvasEntries, reconcile, sortEntries, sortInsert,
      leMin, jsLeb, segmentsLoop, jsAdd, jsHalf, exNested]
  refine ⟨?_, ?_, ?_, ?_⟩
  · simp [canvasEntries, exNested]
  · intro p hp
    simp only [canvasEntries, exNested, List.map_cons, List.map_nil] at hp
    rcases List.mem_cons.1 hp with rfl | hp2
    · norm_num [jsLeP]
    · rcases List.mem_cons.1 hp2 with rfl | hp3
      · norm_num [jsLeP]
      · simp at hp3
  · rw [h1]
    rfl
  · norm_num

/-- C1 (amended): for every non-empty triple set whose observed ranges are
finite, well-formed (`observedMin ≤ observedMax`) and pairwise disjoint,
the Interval Reconciler (`orderCanvasMapping` over pages,
`orderAnnotationMapping` over notes) returns a segment sequence that is
strictly ordered ascending by `start`, non-overlapping and contiguous, and
that covers exactly the interval from the minimum `observedMin` to the
maximum `observedMax` of the input. -/
theorem C1_amended :
    (∀ input : List (String × MinMax),
      input ≠ [] →
      (∀ p ∈ canvasEntries input, ∃ a b : ℚ,
        p.originalMin = num a ∧ p.originalMax = num b ∧ a ≤ b) →
      List.Pairwise (fun x y =>
        jsLtP x.originalMax y.originalMin ∨ jsLtP y.originalMax x.originalMin)
        (canvasEntries input) →
      (∃ mn, (orderCanvasMapping input).head?.map Segment.start = some mn ∧
        (∀ p ∈ canvasEntries input, jsLeP mn p.originalMin) ∧
        ∃ p ∈ canvasEntries input, p.originalMin = mn) ∧
      (∃ mx, (orderCanvasMapping input).getLast?.map Segment.stop = some mx ∧
        (∀ p ∈ canvasEntries input, jsLeP p.originalMax mx) ∧
        ∃ p ∈ canvasEntries input, p.originalMax = mx) ∧
      List.Pairwise (fun x y => jsLtP x.start y.start) (orderCanvasMapping input) ∧
      List.Pairwise (fun x y => jsLeP x.stop y.start) (orderCanvasMapping input) ∧
      List.Chain' (fun x y => x.stop = y.start) (orderCanvasMapping input) ∧
      ∀ seg ∈ orderCanvasMapping input, jsLeP seg.start seg.stop) ∧
    (∀ m : Mapping,
      annotationEntries m ≠ [] →
      (∀ p ∈ annotationEntries m, ∃ a b : ℚ,
        p.originalMin = num a ∧ p.originalMax = num b ∧ a ≤ b) →
      List.Pairwise (fun x y =>
        jsLtP x.originalMax y.originalMin ∨ jsLtP y.originalMax x.originalMin)
        (annotationEntries m) →
      (∃ mn, (orderAnnotationMapping m).head?.map Segment.start = some mn ∧
        (∀ p ∈ annotationEntries m, jsLeP mn p.originalMin) ∧
        ∃ p ∈ annotationEntries m, p.originalMin = mn) ∧
      (∃ mx, (orderAnnotationMapping m).getLast?.map Segment.stop = some mx ∧
        (∀ p ∈ annotationEntries m, jsLeP p.originalMax mx) ∧
        ∃ p ∈ annotationEntries m, p.originalMax = mx) ∧
      List.Pairwise (fun x y => jsLtP x.start y.start) (orderAnnotationMapping m) ∧
      List.Pairwise (fun x y => jsLeP x.stop y.start) (orderAnnotationMapping m) ∧
      List.Chain' (fun x y => x.stop = y.start) (orderAnnotationMapping m) ∧
      ∀ seg ∈ orderAnnotationMapping m, jsLeP seg.start seg.stop) := by
  constructor
  · intro input hne hfin hdisj
    have hne' : canvasEntries input ≠ [] := by
      intro hc
      apply hne
      cases input with
      | nil => rfl
      | cons p r => simp [canvasEntries] at hc
    exact reconcile_props (canvasEntries input) hne' hfin hdisj
  · intro m hne hfin hdisj
    exact reconcile_props (annotationEntries m) hne hfin hdisj

/-- C1 (witness): the amended theorem applied to the specification's worked
accumulator `{A: {0.37, 63.1}, B: {64.15, 144.38}}`. -/
theorem C1_amended_witness :
    exSpecAcc ≠ [] ∧
    List.Chain' (fun x y => x.stop = y.start) (orderCanvasMapping exSpecAcc) ∧
    List.Pairwise (fun x y => jsLtP x.start y.start) (orderCanvasMapping exSpecAcc) := by
  have hfin : ∀ p ∈ canvasEntries exSpecAcc, ∃ a b : ℚ,
      p.originalMin = num a ∧ p.originalMax = num b ∧ a ≤ b := by
    intro p hp
    simp only [canvasEntries, exSpecAcc, List.map_cons, List.map_nil] at hp
    rcases List.mem_cons.1 hp with rfl | hp2
    · exact ⟨37/100, 631/10, rfl, rfl, by norm_num⟩
    · rcases List.mem_cons.1 hp2 with rfl | hp3
      · exact ⟨1283/20, 7219/50, rfl, rfl, by norm_num⟩
      · simp at hp3
  have hdisj : List.Pairwise (fun x y =>
      jsLtP x.originalMax y.originalMin ∨ jsLtP y.originalMax x.originalMin)
      (canvasEntries exSpecAcc) := by
    norm_num [canvasEntries, exSpecAcc, List.pairwise_cons, jsLtP]
  have h := C1_amended.1 exSpecAcc (by decide) hfin hdisj
  exact ⟨by decide, h.2.2.2.2.1, h.2.2.1⟩

/-- C2: for every triple set given to the reconciler, adjacent output
segments satisfy `segments[i].end = segments[i+1].start`, and the first
segment's `start` equals the `observedMin` of the first triple after
sorting (for the empty input both sides of the head equation are `none`). -/
theorem C2_contiguity_first_start :
    (∀ input : List (String × MinMax),
      List.Chain' (fun x y => x.stop = y.start) (orderCanvasMapping input) ∧
      (orderCanvasMapping input).head?.map Segment.start
        = (sortEntries leMin (canvasEntries input)).head?.map OrderedEntry.originalMin) ∧
    (∀ m : Mapping,
      List.Chain' (fun x y => x.stop = y.start) (orderAnnotationMapping m) ∧
      (orderAnnotationMapping m).head?.map Segment.start
        = (sortEntries leMin (annotationEntries m)).head?.map OrderedEntry.originalMin) := by
  constructor
  · intro input
    exact ⟨reconcile_chain (canvasEntries input), reconcile_head_start (canvasEntries input)⟩
  · intro m
    exact ⟨reconcile_chain (annotationEntries m), reconcile_head_start (annotationEntries m)⟩

/-- C3: on the accumulator `{A: {min: 0.37, max: 63.1}, B: {min: 64.15,
max: 144.38}}`, `orderCanvasMapping` returns exactly
`[{A, 0.37, 63.625}, {B, 63.625, 144.38}]`, where `63.625` is the midpoint
`(63.1 + 64.15) / 2`. -/
theorem C3_spec_example :
    orderCanvasMapping exSpecAcc =
      [⟨"A", num (37/100), num (509/8)⟩, ⟨"B", num (509/8), num (7219/50)⟩] ∧
    ((631 : ℚ)/10 + 1283/20) / 2 = 509/8 := by
  constructor
  · norm_num [orderCanvasMapping, canvasEntries, reconcile, sortEntries, sortInsert,
      leMin, jsLeb, segmentsLoop, jsAdd, jsHalf, exSpecAcc]
  · norm_num

/-- C4 (counterexample): the accumulators `{A: {0, 10}, B: {0, 0}}` and its
swap are permutations of one another, yet the segment `{A, 0, 5}` occurs in
the first reconciliation and in no form in the second (whose `A` segment is
`{A, 0, 10}`), so the two runs do not produce the same segment set: with
tied minima the stable sort makes the output depend on input order. -/
theorem C4_counterexample :
    exTied.Perm exTiedRev ∧
    (⟨"A", num 0, num 5⟩ : Segment) ∈ orderCanvasMapping exTied ∧
    (⟨"A", num 0, num 5⟩ : Segment) ∉ orderCanvasMapping exTiedRev := by
  have h1 : orderCanvasMapping exTied = [⟨"A", num 0, num 5⟩, ⟨"B", num 5, num 0⟩] := by
    norm_num [orderCanvasMapping, canvasEntries, reconcile, sortEntries, sortInsert,
      leMin, jsLeb, segmentsLoop, jsAdd, jsHalf, exTied]
  have h2 : orderCanvasMapping exTiedRev = [⟨"B", num 0, num 0⟩, ⟨"A", num 0, num 10⟩] := by
    norm_num [orderCanvasMapping, canvasEntries, reconcile, sortEntries, sortInsert,
      leMin, jsLeb, segmentsLoop, jsAdd, jsHalf, exTiedRev]
  refine ⟨?_, ?_, ?_⟩
  · simp only [exTied, exTiedRev]
    exact List.Perm.swap _ _ _
  · rw [h1]
    simp
  · rw [h2]
    norm_num

/-- C4 (amended): for every triple set whose `observedMin` values are
finite and pairwise distinct, every re-ordering of the entries of the input
mapping yields literally the same segment sequence from the Interval
Reconciler (hence the same segment set after any sorting by key). -/
theorem C4_amended :
    (∀ m1 m2 : List (String × MinMax),
      m1.Perm m2 →
      (∀ p ∈ m1, ∃ a : ℚ, p.2.min = num a) →
      (m1.map (fun p => p.2.min)).Nodup →
      orderCanvasMapping m1 = orderCanvasMapping m2) ∧
    (∀ mp1 mp2 : Mapping,
      mp1.Perm mp2 →
      (∀ e ∈ annotationEntries mp1, ∃ a : ℚ, e.originalMin = num a) →
      ((annotationEntries mp1).map OrderedEntry.originalMin).Nodup →
      orderAnnotationMapping mp1 = orderAnnotationMapping mp2) := by
  constructor
  · intro m1 m2 hp hfin hnd
    have hpe : (canvasEntries m1).Perm (canvasEntries m2) := hp.map _
    have hfin' : ∀ e ∈ canvasEntries m1, ∃ a : ℚ, e.originalMin = num a := by
      intro e he
      obtain ⟨p, hpmem, hpe2⟩ := List.mem_map.1 he
      obtain ⟨a, ha⟩ := hfin p hpmem
      exact ⟨a, by rw [← hpe2]; exact ha⟩
    have hnd' : ((canvasEntries m1).map OrderedEntry.originalMin).Nodup := by
      have hmm : (canvasEntries m1).map OrderedEntry.originalMin
          = m1.map (fun p => p.2.min) := by
        simp [canvasEntries, List.map_map]
      rw [hmm]
      exact hnd
    exact reconcile_perm_eq (canvasEntries m1) (canvasEntries m2) hpe hfin' hnd'
  · intro mp1 mp2 hp hfin hnd
    have hpe : (annotationEntries mp1).Perm (annotationEntries mp2) :=
      hp.filterMap _
    exact reconcile_perm_eq (annotationEntries mp1) (annotationEntries mp2) hpe hfin hnd

/-- C4 (witness): the amended theorem applied to the specification's worked
accumulator and its reversal, whose two minima `0.37` and `64.15` are
distinct. -/
theorem C4_amended_witness :
    exSpecAcc.Perm exSpecAccRev ∧
    orderCanvasMapping exSpecAcc = orderCanvasMapping exSpecAccRev := by
  have hperm : exSpecAcc.Perm exSpecAccRev := by
    simp only [exSpecAcc, exSpecAccRev]
    exact List.Perm.swap _ _ _
  have hnd : (exSpecAcc.map (fun p => p.2.min)).Nodup := by
    norm_num [exSpecAcc, List.nodup_cons]
  refine ⟨hperm, C4_amended.1 exSpecAcc exSpecAccRev hperm ?_ hnd⟩
  intro p hp
  simp only [exSpecAcc] at hp
  rcases List.mem_cons.1 hp with rfl | hp2
  · exact ⟨37/100, rfl⟩
  · rcases List.mem_cons.1 hp2 with rfl | hp3
    · exact ⟨1283/20, rfl⟩
    · simp at hp3

/-- C5: a note id that never occurs in the temporal (audio) collection
acquires no record in the join mapping — even when it occurs in the spatial
(image) collection — and is entirely absent from the note partition
produced by `orderAnnotationMapping` and from the emitted highlight
annotations. -/
theorem C5_spatial_only_absent (env : ResolveEnv)
    (audioIn imageIn : List (String × List RawAnno)) (noteId pid : String)
    (h : noteId ∉ audioIn.map Prod.fst) :
    lookupRecord (processImage env (processAudio audioIn) imageIn).mapping noteId = none ∧
    noteId ∉ (orderAnnotationMapping
      (processImage env (processAudio audioIn) imageIn).mapping).map Segment.id ∧
    ∀ ha ∈ buildHighlights (processImage env (processAudio audioIn) imageIn).mapping pid,
      ha.id ≠ "https://example/image-anno/" ++ noteId := by
  have h1 : lookupRecord (processImage env (processAudio audioIn) imageIn).mapping noteId
      = none :=
    lookupRecord_none_processImage env _ imageIn noteId
      (lookupRecord_none_processAudio audioIn noteId h)
  have h2 : noteId ∉ (orderAnnotationMapping
      (processImage env (processAudio audioIn) imageIn).mapping).map Segment.id := by
    intro hmem
    have hperm := reconcile_ids_perm
      (annotationEntries (processImage env (processAudio audioIn) imageIn).mapping)
    have hmem2 : noteId ∈ (annotationEntries
        (processImage env (processAudio audioIn) imageIn).mapping).map OrderedEntry.id :=
      hperm.mem_iff.1 hmem
    obtain ⟨e, he, heid⟩ := List.mem_map.1 hmem2
    obtain ⟨p, hpmem, hpid⟩ := annotationEntries_mem _ e he
    have hne := lookupRecord_ne_none_of_mem _ p hpmem
    rw [hpid, heid] at hne
    exact hne h1
  refine ⟨h1, h2, ?_⟩
  intro ha hha heq
  obtain ⟨seg, hseg, hsegeq⟩ := List.mem_map.1 hha
  rw [← hsegeq] at heq
  have hid : seg.id = noteId := string_append_cancel heq
  exact h2 (List.mem_map.2 ⟨seg, hseg, hid⟩)

/-- C5 (witness): the theorem applied to an empty temporal collection and a
spatial collection carrying an accepted annotation for the id `n1`. -/
theorem C5_spatial_only_absent_witness :
    ("n1" ∉ (([] : List (String × List RawAnno)).map Prod.fst)) ∧
    (lookupRecord (processImage exEnv (processAudio []) exImageIn).mapping "n1" = none ∧
      "n1" ∉ (orderAnnotationMapping
        (processImage exEnv (processAudio []) exImageIn).mapping).map Segment.id ∧
      ∀ ha ∈ buildHighlights (processImage exEnv (processAudio []) exImageIn).mapping "p0",
        ha.id ≠ "https://example/image-anno/" ++ "n1") :=
  ⟨by decide, C5_spatial_only_absent exEnv [] exImageIn "n1" "p0" (by decide)⟩

/-- C6: for every input string that does not contain the substring `t=`
(so the temporal-selector regex does not match), `getTime` returns
`{start: 0, end: 0}`; the function is total, so no exception can be
raised. -/
theorem C6_no_match_default (s : String) (h : ¬ (['t', '='] <:+: s.data)) :
    getTime s = ⟨num 0, num 0⟩ := by
  unfold getTime
  rw [findTEq_none_of_absent s.data h]

/-- C6 (witness): the theorem applied to the string `hello`. -/
theorem C6_no_match_default_witness :
    (¬ (['t', '='] <:+: ("hello").data)) ∧ getTime ("hello") = ⟨num 0, num 0⟩ :=
  ⟨by decide, C6_no_match_default ("hello") (by decide)⟩

/-- C7 (counterexample): the temporal fragment `t=5`, which omits its end
bound, parses to `{start: 5, end: NaN}` — its start is the number `5`, not
`NaN`, so it is false that both bounds become `NaN`. -/
theorem C7_counterexample :
    getTime (String.mk ['t', '=', '5']) = ⟨num 5, nan⟩ ∧
    (num 5 : JSNum) ≠ nan := by decide

/-- C7 (amended): for a temporal fragment that omits one of its two bounds,
`getTime` returns `NaN` for the omitted bound only, while the present bound
parses to its numeric value: `t=<digits>` yields `{start: value, end: NaN}`
and `t=,<digits>` yields `{start: NaN, end: value}`; the record still has
no usable range because one endpoint is `NaN`. -/
theorem C7_amended (ds : List Char) (hne : ds ≠ [])
    (hall : ∀ c ∈ ds, c.isDigit = true) :
    getTime (String.mk ('t' :: '=' :: ds)) = ⟨num (digitsToNat ds : ℚ), nan⟩ ∧
    getTime (String.mk ('t' :: '=' :: ',' :: ds)) = ⟨nan, num (digitsToNat ds : ℚ)⟩ := by
  constructor
  · have hf : findTEq (String.mk ('t' :: '=' :: ds)).data = some ds := findTEq_head ds
    rw [getTime_of_findTEq _ ds hf, matchTemporal_digits ds hne hall]
  · have hf : findTEq (String.mk ('t' :: '=' :: ',' :: ds)).data = some (',' :: ds) :=
      findTEq_head (',' :: ds)
    rw [getTime_of_findTEq _ (',' :: ds) hf, matchTemporal_comma_digits ds hne hall]

/-- C7 (witness): the amended theorem applied to the fragment `t=5`. -/
theorem C7_amended_witness :
    (['5'] ≠ []) ∧
    getTime (String.mk ['t', '=', '5']) = ⟨num (digitsToNat ['5'] : ℚ), nan⟩ :=
  ⟨by decide, (C7_amended ['5'] (by decide) (by decide)).1⟩

/-- C8: the temporal fragment `t=12.5,18.0` parses to `{start: 12.5,
end: 18.0}`, and the spatial fragment `((P10,20)(P10,40)(P30,40)(P30,20))`
parses to `[[10,20],[10,40],[30,40],[30,20]]`. -/
theorem C8_round_trip :
    getTime ("t=12.5,18.0") = ⟨num (25/2), num 18⟩ ∧
    parseFragmentSelector ("((P10,20)(P10,40)(P30,40)(P30,20))") =
      [[num 10, num 20], [num 10, num 40], [num 30, num 40], [num 30, num 20]] := by
  constructor
  · have hf : findTEq ("t=12.5,18.0").data
        = some ['1', '2', '.', '5', ',', '1', '8', '.', '0'] := rfl
    rw [getTime_of_findTEq _ _ hf]
    have hmt : matchTemporal ['1', '2', '.', '5', ',', '1', '8', '.', '0']
        = (num (((12 : ℕ) : ℚ) + ((5 : ℕ) : ℚ) / 10 ^ 1),
           num (((18 : ℕ) : ℚ) + ((0 : ℕ) : ℚ) / 10 ^ 1)) := rfl
    rw [hmt]
    norm_num
  · have hp : parseFragmentSelector ("((P10,20)(P10,40)(P30,40)(P30,20))")
        = [[num ((10 : ℕ) : ℚ), num ((20 : ℕ) : ℚ)], [num ((10 : ℕ) : ℚ), num ((40 : ℕ) : ℚ)],
           [num ((30 : ℕ) : ℚ), num ((40 : ℕ) : ℚ)], [num ((30 : ℕ) : ℚ), num ((20 : ℕ) : ℚ)]] := rfl
    rw [hp]
    norm_num

/-- C9 (counterexample): assembling the output manifest from inputs whose
audio annotation declares the format `audio/wav` leaves the inputs changed:
`fixAudio` overwrites the audio annotation's `body.format` (and
`body.type`) in place, so the post-assembly input state differs from the
pre-assembly one, contradicting the claim that every input is left
unchanged. -/
theorem C9_counterexample : (assembleManifest exAssembler).2 ≠ exAssembler := by
  intro h
  have h2 : (some "audio/mpeg" : Option String) = some "audio/wav" := by
    calc (some "audio/mpeg" : Option String)
        = (assembleManifest exAssembler).2.audioCanvas.audioAnno.body.format := rfl
      _ = exAssembler.audioCanvas.audioAnno.body.format := by rw [h]
      _ = some "audio/wav" := rfl
  exact absurd h2 (by decide)

/-- C9 (amended): the Manifest Assembler's only side effect on its inputs
is the `fixAudio` mutation of the audio annotation, whose `body.format` and
`body.type` are overwritten; the page partition, the note partition, the
resource map, the service map and the joined note mapping — and every other
field of the audio canvas — are left unchanged, and the mutated annotation
is the one embedded in the output document. -/
theorem C9_amended (inp : AssemblerInputs) :
    (assembleManifest inp).2.orderedCanvases = inp.orderedCanvases ∧
    (assembleManifest inp).2.noteSegments = inp.noteSegments ∧
    (assembleManifest inp).2.resourceMap = inp.resourceMap ∧
    (assembleManifest inp).2.canvasToServiceId = inp.canvasToServiceId ∧
    (assembleManifest inp).2.mapping = inp.mapping ∧
    (assembleManifest inp).2.audioCanvas.id = inp.audioCanvas.id ∧
    (assembleManifest inp).2.audioCanvas.duration = inp.audioCanvas.duration ∧
    (assembleManifest inp).2.audioCanvas.pageId = inp.audioCanvas.pageId ∧
    (assembleManifest inp).2.audioCanvas.audioAnno = fixAudio inp.audioCanvas.audioAnno ∧
    (assembleManifest inp).1.audio = fixAudio inp.audioCanvas.audioAnno :=
  ⟨rfl, rfl, rfl, rfl, rfl, rfl, rfl, rfl, rfl, rfl⟩

/-- C10: for every input string consisting of a prefix without `t=`
followed by `t=` and a digit-free remainder (for example `t=` alone, or
`a&t=x`), the temporal pattern still counts as matched because its numeric
groups are all optional, and `getTime` returns `{start: NaN, end: NaN}`
rather than the non-matching default `{start: 0, end: 0}`. -/
theorem C10_t_eq_no_digits (a b : List Char)
    (h1 : ¬ (['t', '='] <:+: a)) (h2 : ∀ c ∈ b, c.isDigit = false) :
    getTime (String.mk (a ++ 't' :: '=' :: b)) = ⟨nan, nan⟩ := by
  have hf : findTEq (String.mk (a ++ 't' :: '=' :: b)).data = some b :=
    findTEq_append a b h1
  rw [getTime_of_findTEq _ b hf, matchTemporal_nodigit b h2]

/-- C10 (witness): the theorem applied to the string `a&t=x`. -/
theorem C10_t_eq_no_digits_witness :
    (¬ (['t', '='] <:+: ['a', '&'])) ∧ (∀ c ∈ ['x'], c.isDigit = false) ∧
    getTime (String.mk (['a', '&'] ++ 't' :: '=' :: ['x'])) = ⟨nan, nan⟩ :=
  ⟨by decide, by decide, C10_t_eq_no_digits ['a', '&'] ['x'] (by decide) (by decide)⟩
